import Mathlib

/-!
# build-ubi launcher (`src/build-ubi/main.c`)

A shallow embedding of the C function `main` of the mruby launcher, followed by
theorems about its exit status, its error-stream output, the value it binds as
`ARGV`, the order of the library calls it makes and the bounds of its argument
loop.

The mruby library and the bytecode image `ubi` (from the included `ubi.c`) are
not part of the source file; they enter the model as the fields of `World`.
Every library call and every read of `mrb->exc` made by `main` is appended to a
trace, in program order.
-/

namespace BuildUbi

/-! ## Data model -/

/-- Largest value of the C type `int` (32 bits, two's complement). -/
def INT_MAX : Int := 2147483647

/-- Ways in which the C code could leave defined behaviour: an `argv[i]` outside
the `argc` entries of `argv`, or signed overflow of the `int` counter on `i++`. -/
inductive Fault where
  | argv_out_of_range (i : Int)
  | signed_overflow
  deriving DecidableEq, Repr

/-- The C output streams. -/
inductive Stream where
  | stdout
  | stderr
  deriving DecidableEq, Repr

/-- Modelled from the spec: the mruby array object behind an `mrb_value` (mruby's
`struct RArray` is not in the source file), "an ordered sequence of text values":
the capacity requested at creation and the elements pushed so far, each the text
of a string object built by `mrb_str_new_cstr`. -/
structure RArray where
  capa : Int
  elems : List String
  deriving DecidableEq, Repr

/-- Modelled from the spec: the part of mruby's `mrb_state` that `main` touches
(the struct is declared in `mruby.h`, not in the source file): the pending
exception pointer `exc` (`none` is the null pointer) and the table of global
constants, most recent definition first. -/
structure mrb_state where
  exc : Option Nat
  globals : List (String × RArray)
  deriving DecidableEq, Repr

/-- One entry of the trace: a library call made by `main`, with its arguments, or
the read of `mrb->exc`. The `mrb` argument is the pointer returned by `mrb_open`. -/
inductive Call where
  | mrb_open
  | fputs (s : String) (stream : Stream)
  | mrb_ary_new_capa (mrb : Nat) (capa : Int)
  | mrb_utf8_from_locale (p : String) (len : Int)
  | mrb_str_new_cstr (mrb : Nat) (p : String)
  | mrb_ary_push (mrb : Nat) (ary : RArray) (v : String)
  | mrb_define_global_const (mrb : Nat) (name : String) (v : RArray)
  | mrb_load_irep (mrb : Nat) (irep : List Nat)
  | read_exc (mrb : Nat)
  | mrb_close (mrb : Nat)
  deriving DecidableEq, Repr

/-- Everything outside `main.c` that decides a run: the outcome of `mrb_open`
(`none` for a null pointer, otherwise the pointer and the fresh state it points
to), the conversion `mrb_utf8_from_locale`, the effect of `mrb_load_irep` on the
state (the behaviour of the embedded program), and the bytes of the image `ubi`.
Library calls are taken to return: a program that never ends, or a library call
that aborts the process, is outside the model. -/
structure World where
  mrb_open : Option (Nat × mrb_state)
  mrb_utf8_from_locale : String → Int → String
  mrb_load_irep : mrb_state → List Nat → mrb_state
  ubi : List Nat

/-- Modelled from the spec: `mrb_ary_new_capa(mrb, capa)` of mruby, an empty
array with the requested capacity. -/
def mrb_ary_new_capa (capa : Int) : RArray :=
  { capa := capa, elems := [] }

/-- Modelled from the spec: `mrb_str_new_cstr(mrb, p)` of mruby, a string object
holding the text of the C string `p`. -/
def mrb_str_new_cstr (p : String) : String := p

/-- Modelled from the spec: `mrb_ary_push(mrb, ary, v)` of mruby, which appends
`v` as the last element of the ordered sequence. -/
def mrb_ary_push (ary : RArray) (v : String) : RArray :=
  { ary with elems := ary.elems ++ [v] }

/-- Modelled from the spec: `mrb_define_global_const(mrb, name, v)` of mruby,
which binds `name` to `v` in the global namespace of the environment. -/
def mrb_define_global_const (st : mrb_state) (name : String) (v : RArray) : mrb_state :=
  { st with globals := (name, v) :: st.globals }

/-- The value bound to a global constant, if any. -/
def global_const (st : mrb_state) (name : String) : Option RArray :=
  st.globals.lookup name

/-! ## The program -/

/-- The C expression `argv[i]`, with `argv` the list of its `argc` entries. -/
def argv_at (argv : List String) (i : Int) : Except Fault String :=
  if i < 0 then .error (.argv_out_of_range i)
  else
    match argv[i.toNat]? with
    | some p => .ok p
    | none => .error (.argv_out_of_range i)

/-- State carried around the argument loop: the array `ARGV`, the trace so far,
and two ghost fields, the indices at which `argv` was read and the number of
completed iterations. -/
structure LoopState where
  ARGV : RArray
  trace : List Call
  reads : List Int
  iterations : Nat
  deriving DecidableEq, Repr

/-- Lines 17-20: `for (int i = 1; i < argc; i++) { ... }`, entered with the
counter at `i`. The step `i++` on an `int` is undefined when `i + 1` exceeds
`INT_MAX`; that outcome is the fault `signed_overflow`. -/
def argLoop (w : World) (mrb : Nat) (argc : Int) (argv : List String)
    (i : Int) (s : LoopState) : Except Fault LoopState :=
  if i < argc then
    match argv_at argv i with
    | .error f => .error f
    | .ok p =>
      let utf8 := w.mrb_utf8_from_locale p (-1)
      let v := mrb_str_new_cstr utf8
      let s1 : LoopState :=
        { ARGV := mrb_ary_push s.ARGV v
          trace := s.trace ++ [Call.mrb_utf8_from_locale p (-1), Call.mrb_str_new_cstr mrb utf8,
                               Call.mrb_ary_push mrb s.ARGV v]
          reads := s.reads ++ [i]
          iterations := s.iterations + 1 }
      if i + 1 ≤ INT_MAX then argLoop w mrb argc argv (i + 1) s1
      else .error .signed_overflow
  else .ok s
termination_by (argc - i).toNat
decreasing_by omega

/-- What a run of `main` leaves behind: the value returned, the trace, the ghost
fields of the loop, and the environment state as the embedded program finds it
(`at_exec`) and as it is when `mrb->exc` is read (`at_exit`). -/
structure Exit where
  ret : Int
  trace : List Call
  reads : List Int
  iterations : Nat
  at_exec : Option mrb_state
  at_exit : Option mrb_state
  deriving DecidableEq, Repr

/-- The function `main` of `main.c`. -/
def main (w : World) (argc : Int) (argv : List String) : Except Fault Exit :=
  match w.mrb_open with
  | none =>
    .ok { ret := 1
          trace := [Call.mrb_open, Call.fputs "Error during initialization\n" Stream.stderr]
          reads := [], iterations := 0, at_exec := none, at_exit := none }
  | some (mrb, st) =>
    let ARGV := mrb_ary_new_capa argc
    match argLoop w mrb argc argv 1
        { ARGV := ARGV, trace := [Call.mrb_open, Call.mrb_ary_new_capa mrb argc],
          reads := [], iterations := 0 } with
    | .error f => .error f
    | .ok s =>
      let st1 := mrb_define_global_const st "ARGV" s.ARGV
      let st2 := w.mrb_load_irep st1 w.ubi
      let ret : Int := if st2.exc.isSome then 1 else 0
      .ok { ret := ret
            trace := s.trace ++ [Call.mrb_define_global_const mrb "ARGV" s.ARGV,
                                 Call.mrb_load_irep mrb w.ubi, Call.read_exc mrb,
                                 Call.mrb_close mrb]
            reads := s.reads, iterations := s.iterations
            at_exec := some st1, at_exit := some st2 }

/-! ## Vocabulary of the statements -/

/-- The string object `main` pushes for the argument `p`: line 18 followed by
the `mrb_str_new_cstr` of line 19. -/
def normalize (w : World) (p : String) : String :=
  mrb_str_new_cstr (w.mrb_utf8_from_locale p (-1))

/-- The calls of the loop body for the arguments `args`, the array holding `A`
when the first of them is reached: conversion, string construction, push. -/
def loop_calls (w : World) (mrb : Nat) : RArray → List String → List Call
  | _, [] => []
  | A, p :: rest =>
    [Call.mrb_utf8_from_locale p (-1), Call.mrb_str_new_cstr mrb (w.mrb_utf8_from_locale p (-1)),
     Call.mrb_ary_push mrb A (normalize w p)]
      ++ loop_calls w mrb (mrb_ary_push A (normalize w p)) rest

/-- The calls of the loop body with the string construction left out: per
argument one conversion followed by one push. -/
def loop_calls_without_str_new (w : World) (mrb : Nat) : RArray → List String → List Call
  | _, [] => []
  | A, p :: rest =>
    [Call.mrb_utf8_from_locale p (-1), Call.mrb_ary_push mrb A (normalize w p)]
      ++ loop_calls_without_str_new w mrb (mrb_ary_push A (normalize w p)) rest

/-- The array `main` binds for `argv`: capacity `argc`, one element per argument
after the program name. -/
def bound_array (w : World) (argc : Int) (argv : List String) : RArray :=
  { capa := argc, elems := argv.tail.map (normalize w) }

/-- The trace of a run in which `mrb_open` returned `mrb`, with the loop body
given by `body`. -/
def run_trace (body : RArray → List String → List Call) (w : World) (mrb : Nat)
    (argc : Int) (argv : List String) : List Call :=
  [Call.mrb_open, Call.mrb_ary_new_capa mrb argc]
    ++ body (mrb_ary_new_capa argc) argv.tail
    ++ [Call.mrb_define_global_const mrb "ARGV" (bound_array w argc argv),
        Call.mrb_load_irep mrb w.ubi, Call.read_exc mrb, Call.mrb_close mrb]

/-- The text a call writes to the error stream, if it writes there. -/
def Call.stderr_text : Call → Option String
  | Call.fputs s Stream.stderr => some s
  | _ => none

/-- The writes to the error stream made by the calls of a trace, in order. -/
def stderr_writes (tr : List Call) : List String :=
  tr.filterMap Call.stderr_text

/-- The text on the error stream after the calls of a trace. -/
def stderr_output (tr : List Call) : String :=
  String.join (stderr_writes tr)

/-- Recognises a write to a stream. -/
def Call.is_fputs : Call → Bool
  | Call.fputs _ _ => true
  | _ => false

/-- Recognises the creation of an array. -/
def Call.is_ary_new : Call → Bool
  | Call.mrb_ary_new_capa _ _ => true
  | _ => false

/-- Recognises a push. -/
def Call.is_push : Call → Bool
  | Call.mrb_ary_push _ _ _ => true
  | _ => false

/-- Recognises the definition of a global constant. -/
def Call.is_define : Call → Bool
  | Call.mrb_define_global_const _ _ _ => true
  | _ => false

/-- Recognises the release of an environment. -/
def Call.is_close : Call → Bool
  | Call.mrb_close _ => true
  | _ => false

/-- A world for concrete runs: `mrb_open` yields pointer 7 to an empty state when
`opened`, the conversion appends a mark, and the embedded program leaves an
exception behind when `raises`. -/
def sample_world (opened raises : Bool) : World :=
  { mrb_open := if opened then some (7, { exc := none, globals := [] }) else none
    mrb_utf8_from_locale := fun p _ => p ++ "~"
    mrb_load_irep := fun st _ => { st with exc := if raises then some 1 else none }
    ubi := [82, 73, 84, 69] }

/-! ## The loop -/

theorem argv_at_of_drop (argv : List String) (i : Int) (p : String) (rest : List String)
    (hi : 0 ≤ i) (hd : argv.drop i.toNat = p :: rest) : argv_at argv i = .ok p := by
  have hget : argv[i.toNat]? = some p := by
    have h0 := List.getElem?_drop argv i.toNat 0
    rw [hd] at h0
    simpa using h0.symm
  simp [argv_at, hget, not_lt.mpr hi]

theorem length_of_drop (argv : List String) (n : Nat) (rest : List String)
    (hd : argv.drop n = rest) : argv.length = n + rest.length ∨ (rest = [] ∧ argv.length ≤ n) := by
  subst hd
  rcases Nat.lt_or_ge n argv.length with h | h
  · left; simp; omega
  · right; exact ⟨List.drop_eq_nil_of_le h, h⟩

/-- The loop entered at counter `i`, with `rest` the entries of `argv` from
index `i` on: it returns, after one iteration per entry of `rest`. -/
theorem argLoop_run (w : World) (mrb : Nat) (argc : Int) (argv : List String)
    (hlen : (argv.length : Int) = argc) (hmax : argc ≤ INT_MAX) :
    ∀ (rest : List String) (i : Int) (s : LoopState), 0 ≤ i → argv.drop i.toNat = rest →
      argLoop w mrb argc argv i s = .ok
        { ARGV := { capa := s.ARGV.capa, elems := s.ARGV.elems ++ rest.map (normalize w) }
          trace := s.trace ++ loop_calls w mrb s.ARGV rest
          reads := s.reads ++ (List.range rest.length).map (fun (k : Nat) => i + Int.ofNat k)
          iterations := s.iterations + rest.length } := by
  intro rest
  induction rest with
  | nil =>
    intro i s hi hd
    have hge : ¬ i < argc := by
      rcases length_of_drop argv i.toNat [] hd with h | ⟨_, h⟩
      · simp at h; omega
      · omega
    rw [argLoop]
    simp [hge, loop_calls]
  | cons p rest ih =>
    intro i s hi hd
    have hlt : i < argc := by
      rcases length_of_drop argv i.toNat (p :: rest) hd with h | ⟨h, _⟩
      · simp at h; omega
      · cases h
    have hnext : argv.drop (i + 1).toNat = rest := by
      have h1 : (i + 1).toNat = i.toNat + 1 := by omega
      rw [h1, ← List.drop_drop, hd]
      rfl
    have hov : i + 1 ≤ INT_MAX := by omega
    rw [argLoop]
    simp only [hlt, if_true, argv_at_of_drop argv i p rest hi hd, hov]
    rw [ih (i + 1) _ (by omega) hnext]
    simp [loop_calls, mrb_ary_push, normalize, List.range_succ_eq_map, List.map_map,
      Function.comp_def]
    constructor
    · intro a _
      ring
    · ring

/-! ## Calls of the loop body, by kind -/

theorem loop_calls_no_fputs (w : World) (mrb : Nat) (rest : List String) :
    ∀ A : RArray, (loop_calls w mrb A rest).filter Call.is_fputs = [] := by
  induction rest with
  | nil => intro A; rfl
  | cons p rest ih => intro A; simp [loop_calls, Call.is_fputs, ih]

theorem loop_calls_no_stderr (w : World) (mrb : Nat) (rest : List String) :
    ∀ A : RArray, stderr_writes (loop_calls w mrb A rest) = [] := by
  induction rest with
  | nil => intro A; rfl
  | cons p rest ih =>
    intro A
    have h := ih (mrb_ary_push A (normalize w p))
    simp only [stderr_writes] at h ⊢
    simp [loop_calls, Call.stderr_text, h]

theorem loop_calls_no_ary_new (w : World) (mrb : Nat) (rest : List String) :
    ∀ A : RArray, (loop_calls w mrb A rest).filter Call.is_ary_new = [] := by
  induction rest with
  | nil => intro A; rfl
  | cons p rest ih => intro A; simp [loop_calls, Call.is_ary_new, ih]

theorem loop_calls_no_define (w : World) (mrb : Nat) (rest : List String) :
    ∀ A : RArray, (loop_calls w mrb A rest).filter Call.is_define = [] := by
  induction rest with
  | nil => intro A; rfl
  | cons p rest ih => intro A; simp [loop_calls, Call.is_define, ih]

theorem loop_calls_no_close (w : World) (mrb : Nat) (rest : List String) :
    ∀ A : RArray, (loop_calls w mrb A rest).filter Call.is_close = [] := by
  induction rest with
  | nil => intro A; rfl
  | cons p rest ih => intro A; simp [loop_calls, Call.is_close, ih]

theorem loop_calls_pushes (w : World) (mrb : Nat) (rest : List String) :
    ∀ A : RArray, ((loop_calls w mrb A rest).filter Call.is_push).length = rest.length := by
  induction rest with
  | nil => intro A; rfl
  | cons p rest ih => intro A; simp [loop_calls, Call.is_push, ih]

theorem loop_calls_push_room (w : World) (mrb : Nat) (rest : List String) :
    ∀ (A : RArray) (m : Nat) (a : RArray) (v : String),
      Call.mrb_ary_push m a v ∈ loop_calls w mrb A rest →
        a.capa = A.capa ∧ a.elems.length < A.elems.length + rest.length := by
  induction rest with
  | nil => intro A m a v h; simp [loop_calls] at h
  | cons p rest ih =>
    intro A m a v h
    simp only [loop_calls, List.mem_append, List.mem_cons, List.mem_singleton] at h
    rcases h with (h | h | h | h) | h
    · cases h
    · cases h
    · cases h
      simp
    · cases h
    · have h2 := ih (mrb_ary_push A (normalize w p)) m a v h
      simp [mrb_ary_push] at h2
      simp
      omega

/-! ## The two paths of `main` -/

theorem main_fail (w : World) (argc : Int) (argv : List String) (hopen : w.mrb_open = none) :
    main w argc argv = .ok
      { ret := 1
        trace := [Call.mrb_open, Call.fputs "Error during initialization\n" Stream.stderr]
        reads := [], iterations := 0, at_exec := none, at_exit := none } := by
  simp [main, hopen]

theorem main_run (w : World) (mrb : Nat) (st : mrb_state) (argc : Int) (argv : List String)
    (hopen : w.mrb_open = some (mrb, st)) (hlen : (argv.length : Int) = argc)
    (hmax : argc ≤ INT_MAX) :
    main w argc argv = .ok
      { ret := if (w.mrb_load_irep
            (mrb_define_global_const st "ARGV" (bound_array w argc argv)) w.ubi).exc.isSome
          then 1 else 0
        trace := run_trace (loop_calls w mrb) w mrb argc argv
        reads := (List.range argv.tail.length).map (fun (k : Nat) => 1 + Int.ofNat k)
        iterations := argv.tail.length
        at_exec := some (mrb_define_global_const st "ARGV" (bound_array w argc argv))
        at_exit := some (w.mrb_load_irep
            (mrb_define_global_const st "ARGV" (bound_array w argc argv)) w.ubi) } := by
  have hloop := argLoop_run w mrb argc argv hlen hmax argv.tail 1
    { ARGV := mrb_ary_new_capa argc, trace := [Call.mrb_open, Call.mrb_ary_new_capa mrb argc],
      reads := [], iterations := 0 } (by decide) (by simp)
  simp only [main, hopen, hloop]
  simp [run_trace, bound_array, mrb_ary_new_capa]

theorem tail_length_int (argv : List String) (argc : Int) (hlen : (argv.length : Int) = argc) :
    (argv.tail.length : Int) = max (argc - 1) 0 := by
  simp only [List.length_tail]
  omega

/-! ## Argument forwarding -/

/-- C1: for a program name followed by the arguments `args` (so `argc` is
`args.length + 1`), when `mrb_open` succeeds `main` returns, the environment the
embedded program finds has `ARGV` bound to the array given to the one
`mrb_define_global_const` call, and that array has exactly `args.length`
elements, the k-th being the string built from the conversion of `args[k]`: the
order is kept, the program name is left out, nothing is dropped or repeated. -/
theorem argv_bound_in_order (w : World) (mrb : Nat) (st : mrb_state) (prog : String)
    (args : List String) (hopen : w.mrb_open = some (mrb, st))
    (hmax : (args.length : Int) + 1 ≤ INT_MAX) :
    ∃ r st1 A, main w ((args.length : Int) + 1) (prog :: args) = .ok r ∧
      r.at_exec = some st1 ∧ global_const st1 "ARGV" = some A ∧
      r.trace.filter Call.is_define = [Call.mrb_define_global_const mrb "ARGV" A] ∧
      A.elems.length = args.length ∧
      A.elems = args.map (fun p => mrb_str_new_cstr (w.mrb_utf8_from_locale p (-1))) ∧
      ∀ (k : Nat) (hk : k < args.length),
        A.elems[k]? = some (mrb_str_new_cstr (w.mrb_utf8_from_locale args[k] (-1))) := by
  have hrun := main_run w mrb st ((args.length : Int) + 1) (prog :: args) hopen (by simp) hmax
  refine ⟨_, _, bound_array w ((args.length : Int) + 1) (prog :: args), hrun, rfl, ?_, ?_, ?_, ?_, ?_⟩
  · simp [global_const, mrb_define_global_const]
  · simp [run_trace, List.filter_append, loop_calls_no_define, Call.is_define]
  · simp [bound_array]
  · simp [bound_array, normalize]
  · intro k hk
    simp [bound_array, normalize, hk]

theorem argv_bound_in_order_witness :
    (sample_world true false).mrb_open = some (7, { exc := none, globals := [] }) ∧
    ((["-v", "", "x y"].length : Int) + 1 ≤ INT_MAX) ∧
    ∃ r st1 A, main (sample_world true false) ((["-v", "", "x y"].length : Int) + 1)
        ("ubi" :: ["-v", "", "x y"]) = .ok r ∧
      r.at_exec = some st1 ∧ global_const st1 "ARGV" = some A ∧
      r.trace.filter Call.is_define = [Call.mrb_define_global_const 7 "ARGV" A] ∧
      A.elems.length = ["-v", "", "x y"].length ∧
      A.elems = ["-v", "", "x y"].map
        (fun p => mrb_str_new_cstr ((sample_world true false).mrb_utf8_from_locale p (-1))) ∧
      ∀ (k : Nat) (hk : k < ["-v", "", "x y"].length),
        A.elems[k]? = some (mrb_str_new_cstr
          ((sample_world true false).mrb_utf8_from_locale ["-v", "", "x y"][k] (-1))) :=
  ⟨rfl, by decide,
    argv_bound_in_order (sample_world true false) 7 { exc := none, globals := [] } "ubi"
      ["-v", "", "x y"] rfl (by decide)⟩

/-! ## Exit status -/

/-- C2: for every outcome of `mrb_open`, every behaviour of the embedded program
and every argument vector of `argc` entries, `main` returns; the value returned
is 0 exactly when `mrb_open` succeeded and `exc` is null in the state that
`mrb_load_irep` leaves when run on the environment with `ARGV` bound; it is 1
when `mrb_open` failed and 1 when `exc` is not null in that state, so it is
always 0 or 1. The state whose `exc` is read is the one `mrb_load_irep`
returned. -/
theorem exit_status_zero_iff (w : World) (argc : Int) (argv : List String)
    (hlen : (argv.length : Int) = argc) (hmax : argc ≤ INT_MAX) :
    ∃ r, main w argc argv = .ok r ∧
      (r.ret = 0 ↔ ∃ mrb st, w.mrb_open = some (mrb, st) ∧
        (w.mrb_load_irep (mrb_define_global_const st "ARGV"
          { capa := argc
            elems := argv.tail.map (fun p => mrb_str_new_cstr (w.mrb_utf8_from_locale p (-1))) })
          w.ubi).exc = none) ∧
      (w.mrb_open = none → r.ret = 1) ∧
      (∀ mrb st, w.mrb_open = some (mrb, st) →
        (w.mrb_load_irep (mrb_define_global_const st "ARGV"
          { capa := argc
            elems := argv.tail.map (fun p => mrb_str_new_cstr (w.mrb_utf8_from_locale p (-1))) })
          w.ubi).exc ≠ none → r.ret = 1) ∧
      (∀ mrb st, w.mrb_open = some (mrb, st) →
        r.at_exit = some (w.mrb_load_irep (mrb_define_global_const st "ARGV"
          { capa := argc
            elems := argv.tail.map (fun p => mrb_str_new_cstr (w.mrb_utf8_from_locale p (-1))) })
          w.ubi)) ∧
      (r.ret ≠ 0 → r.ret = 1) ∧ (r.ret = 0 ∨ r.ret = 1) := by
  have hb : ({ capa := argc
               elems := argv.tail.map
                 (fun p => mrb_str_new_cstr (w.mrb_utf8_from_locale p (-1))) } : RArray)
      = bound_array w argc argv := rfl
  simp only [hb]
  cases hopen : w.mrb_open with
  | none =>
    refine ⟨_, main_fail w argc argv hopen, ?_, ?_, ?_, ?_, ?_, ?_⟩
    · simp
    · intro _
      rfl
    · intro mrb st h
      cases h
    · intro mrb st h
      cases h
    · simp
    · simp
  | some ms =>
    obtain ⟨mrb, st⟩ := ms
    refine ⟨_, main_run w mrb st argc argv hopen hlen hmax, ?_, ?_, ?_, ?_, ?_, ?_⟩
    · cases hexc : (w.mrb_load_irep
          (mrb_define_global_const st "ARGV" (bound_array w argc argv)) w.ubi).exc with
      | none =>
        simp only [hexc, Option.isSome_none, Bool.false_eq_true, if_false, true_iff]
        exact ⟨mrb, st, rfl, hexc⟩
      | some e =>
        simp only [hexc, Option.isSome_some, if_true, one_ne_zero, false_iff]
        rintro ⟨mrb2, st2, h, hn⟩
        simp only [Option.some.injEq, Prod.mk.injEq] at h
        obtain ⟨_, h2⟩ := h
        subst h2
        rw [hexc] at hn
        cases hn
    · intro h
      cases h
    · intro mrb2 st2 h hexc
      simp only [Option.some.injEq, Prod.mk.injEq] at h
      obtain ⟨_, h2⟩ := h
      subst h2
      cases hx : (w.mrb_load_irep
          (mrb_define_global_const st "ARGV" (bound_array w argc argv)) w.ubi).exc with
      | none => exact absurd hx hexc
      | some e => simp [hx]
    · intro mrb2 st2 h
      simp only [Option.some.injEq, Prod.mk.injEq] at h
      obtain ⟨_, h2⟩ := h
      subst h2
      rfl
    · intro h
      by_contra h1
      apply h
      simp only at h1 ⊢
      split at h1
      · exact absurd rfl h1
      · rename_i h2
        simp [h2]
    · simp only
      split
      · exact Or.inr rfl
      · exact Or.inl rfl

theorem exit_status_zero_iff_witness :
    ((["ubi", "run"].length : Int) = 2) ∧ ((2 : Int) ≤ INT_MAX) ∧
    ∃ r, main (sample_world true false) 2 ["ubi", "run"] = .ok r ∧
      (r.ret = 0 ↔ ∃ mrb st, (sample_world true false).mrb_open = some (mrb, st) ∧
        ((sample_world true false).mrb_load_irep (mrb_define_global_const st "ARGV"
          { capa := 2
            elems := ["ubi", "run"].tail.map
              (fun p => mrb_str_new_cstr ((sample_world true false).mrb_utf8_from_locale p (-1))) })
          (sample_world true false).ubi).exc = none) ∧
      ((sample_world true false).mrb_open = none → r.ret = 1) ∧
      (∀ mrb st, (sample_world true false).mrb_open = some (mrb, st) →
        ((sample_world true false).mrb_load_irep (mrb_define_global_const st "ARGV"
          { capa := 2
            elems := ["ubi", "run"].tail.map
              (fun p => mrb_str_new_cstr ((sample_world true false).mrb_utf8_from_locale p (-1))) })
          (sample_world true false).ubi).exc ≠ none → r.ret = 1) ∧
      (∀ mrb st, (sample_world true false).mrb_open = some (mrb, st) →
        r.at_exit = some ((sample_world true false).mrb_load_irep
          (mrb_define_global_const st "ARGV"
            { capa := 2
              elems := ["ubi", "run"].tail.map
                (fun p => mrb_str_new_cstr
                  ((sample_world true false).mrb_utf8_from_locale p (-1))) })
          (sample_world true false).ubi)) ∧
      (r.ret ≠ 0 → r.ret = 1) ∧ (r.ret = 0 ∨ r.ret = 1) :=
  ⟨by decide, by decide,
    exit_status_zero_iff (sample_world true false) 2 ["ubi", "run"] (by decide) (by decide)⟩

/-! ## Failure of `mrb_open` -/

/-- C3: when `mrb_open` returns null, for every `argc` and `argv` the function
`main` returns 1, its trace is `mrb_open` followed by the single `fputs` of the
fixed line to the error stream, and nothing else: no array, no conversion, no
push, no binding of `ARGV`, no execution of the image, no `mrb_close`. -/
theorem acquisition_failure_path (w : World) (argc : Int) (argv : List String)
    (hopen : w.mrb_open = none) :
    ∃ r, main w argc argv = .ok r ∧ r.ret = 1 ∧
      r.trace = [Call.mrb_open, Call.fputs "Error during initialization\n" Stream.stderr] ∧
      stderr_writes r.trace = ["Error during initialization\n"] ∧
      stderr_output r.trace = "Error during initialization\n" ∧
      r.reads = [] ∧ r.iterations = 0 ∧ r.at_exec = none ∧ r.at_exit = none := by
  refine ⟨_, main_fail w argc argv hopen, rfl, rfl, rfl, ?_, rfl, rfl, rfl, rfl⟩
  decide

theorem acquisition_failure_path_witness :
    (sample_world false false).mrb_open = none ∧
    ∃ r, main (sample_world false false) 3 ["ubi", "a", "b"] = .ok r ∧ r.ret = 1 ∧
      r.trace = [Call.mrb_open, Call.fputs "Error during initialization\n" Stream.stderr] ∧
      stderr_writes r.trace = ["Error during initialization\n"] ∧
      stderr_output r.trace = "Error during initialization\n" ∧
      r.reads = [] ∧ r.iterations = 0 ∧ r.at_exec = none ∧ r.at_exit = none :=
  ⟨rfl, acquisition_failure_path (sample_world false false) 3 ["ubi", "a", "b"] rfl⟩

/-! ## Release of the environment -/

/-- C4: whenever `mrb_open` succeeds, for every argument vector and whatever
state the embedded program leaves, the trace of `main` holds exactly one
`mrb_close` call, made on the pointer that `mrb_open` returned; this holds when
the value returned is 0 and when it is 1. -/
theorem close_exactly_once (w : World) (mrb : Nat) (st : mrb_state) (argc : Int)
    (argv : List String) (hopen : w.mrb_open = some (mrb, st))
    (hlen : (argv.length : Int) = argc) (hmax : argc ≤ INT_MAX) :
    ∃ r, main w argc argv = .ok r ∧
      r.trace.filter Call.is_close = [Call.mrb_close mrb] ∧
      r.trace.count (Call.mrb_close mrb) = 1 ∧
      (r.trace.filter Call.is_close).length = 1 ∧
      r.trace.getLast? = some (Call.mrb_close mrb) := by
  have hf : (run_trace (loop_calls w mrb) w mrb argc argv).filter Call.is_close
      = [Call.mrb_close mrb] := by
    simp [run_trace, List.filter_append, loop_calls_no_close, Call.is_close]
  refine ⟨_, main_run w mrb st argc argv hopen hlen hmax, hf, ?_, ?_, ?_⟩
  · have hzero : (loop_calls w mrb (mrb_ary_new_capa argc) argv.tail).count
        (Call.mrb_close mrb) = 0 := by
      apply List.count_eq_zero_of_not_mem
      intro hmem
      have hin : Call.mrb_close mrb ∈
          (loop_calls w mrb (mrb_ary_new_capa argc) argv.tail).filter Call.is_close :=
        List.mem_filter.mpr ⟨hmem, rfl⟩
      rw [loop_calls_no_close] at hin
      cases hin
    simp [run_trace, List.count_cons, hzero]
  · simp only [hf, List.length_singleton]
  · have hsplit : run_trace (loop_calls w mrb) w mrb argc argv
        = ([Call.mrb_open, Call.mrb_ary_new_capa mrb argc]
            ++ loop_calls w mrb (mrb_ary_new_capa argc) argv.tail
            ++ [Call.mrb_define_global_const mrb "ARGV" (bound_array w argc argv),
                Call.mrb_load_irep mrb w.ubi, Call.read_exc mrb]) ++ [Call.mrb_close mrb] := by
      simp [run_trace]
    simp only [hsplit, List.getLast?_append, List.getLast?_singleton]
    rfl

theorem close_exactly_once_witness :
    (sample_world true true).mrb_open = some (7, { exc := none, globals := [] }) ∧
    ((["ubi", "a", "b"].length : Int) = 3) ∧ ((3 : Int) ≤ INT_MAX) ∧
    ∃ r, main (sample_world true true) 3 ["ubi", "a", "b"] = .ok r ∧
      r.trace.filter Call.is_close = [Call.mrb_close 7] ∧
      r.trace.count (Call.mrb_close 7) = 1 ∧
      (r.trace.filter Call.is_close).length = 1 ∧
      r.trace.getLast? = some (Call.mrb_close 7) :=
  ⟨rfl, by decide, by decide,
    close_exactly_once (sample_world true true) 7 { exc := none, globals := [] } 3
      ["ubi", "a", "b"] rfl (by decide) (by decide)⟩

/-! ## No arguments -/

/-- C5: with no argument after the program name (`argc` 1), and likewise with an
empty `argv` (`argc` 0), when `mrb_open` succeeds `main` returns after the calls
`mrb_open`, `mrb_ary_new_capa`, one `mrb_define_global_const` of `"ARGV"`,
`mrb_load_irep`, the read of `exc` and `mrb_close`: no conversion and no push
is made, the loop body never runs, and the embedded program finds `ARGV` bound
to an array without elements. -/
theorem no_arguments_binds_empty_array (w : World) (mrb : Nat) (st : mrb_state)
    (prog : String) (hopen : w.mrb_open = some (mrb, st)) :
    (∃ r st1, main w 1 [prog] = .ok r ∧
      r.trace = [Call.mrb_open, Call.mrb_ary_new_capa mrb 1,
        Call.mrb_define_global_const mrb "ARGV" { capa := 1, elems := [] },
        Call.mrb_load_irep mrb w.ubi, Call.read_exc mrb, Call.mrb_close mrb] ∧
      r.at_exec = some st1 ∧ global_const st1 "ARGV" = some { capa := 1, elems := [] } ∧
      r.at_exit = some (w.mrb_load_irep st1 w.ubi) ∧
      r.ret = (if (w.mrb_load_irep st1 w.ubi).exc.isSome then 1 else 0) ∧
      r.iterations = 0 ∧ r.reads = []) ∧
    (∃ r st1, main w 0 [] = .ok r ∧
      r.trace = [Call.mrb_open, Call.mrb_ary_new_capa mrb 0,
        Call.mrb_define_global_const mrb "ARGV" { capa := 0, elems := [] },
        Call.mrb_load_irep mrb w.ubi, Call.read_exc mrb, Call.mrb_close mrb] ∧
      r.at_exec = some st1 ∧ global_const st1 "ARGV" = some { capa := 0, elems := [] } ∧
      r.at_exit = some (w.mrb_load_irep st1 w.ubi) ∧
      r.ret = (if (w.mrb_load_irep st1 w.ubi).exc.isSome then 1 else 0) ∧
      r.iterations = 0 ∧ r.reads = []) := by
  constructor
  · refine ⟨_, _, main_run w mrb st 1 [prog] hopen (by simp) (by decide), ?_, rfl, ?_, rfl, rfl,
      rfl, rfl⟩
    · simp [run_trace, loop_calls, bound_array]
    · simp [global_const, mrb_define_global_const, bound_array]
  · refine ⟨_, _, main_run w mrb st 0 [] hopen (by simp) (by decide), ?_, rfl, ?_, rfl, rfl,
      rfl, rfl⟩
    · simp [run_trace, loop_calls, bound_array]
    · simp [global_const, mrb_define_global_const, bound_array]

theorem no_arguments_binds_empty_array_witness :
    (sample_world true false).mrb_open = some (7, { exc := none, globals := [] }) ∧
    (∃ r st1, main (sample_world true false) 1 ["ubi"] = .ok r ∧
      r.trace = [Call.mrb_open, Call.mrb_ary_new_capa 7 1,
        Call.mrb_define_global_const 7 "ARGV" { capa := 1, elems := [] },
        Call.mrb_load_irep 7 (sample_world true false).ubi, Call.read_exc 7,
        Call.mrb_close 7] ∧
      r.at_exec = some st1 ∧ global_const st1 "ARGV" = some { capa := 1, elems := [] } ∧
      r.at_exit = some ((sample_world true false).mrb_load_irep st1 (sample_world true false).ubi) ∧
      r.ret = (if ((sample_world true false).mrb_load_irep st1
        (sample_world true false).ubi).exc.isSome then 1 else 0) ∧
      r.iterations = 0 ∧ r.reads = []) :=
  ⟨rfl, (no_arguments_binds_empty_array (sample_world true false) 7
    { exc := none, globals := [] } "ubi" rfl).1⟩

/-! ## Error stream -/

/-- C6: for every argument vector of `argc` entries `main` returns, and the text
it writes to the error stream is non-empty exactly when `mrb_open` failed; when
`mrb_open` succeeded the trace holds no `fputs` at all, whatever the embedded
program leaves; and when the state `mrb_load_irep` returns has `exc` not null,
the value returned is 1 and still nothing is written to the error stream. -/
theorem stderr_only_on_acquisition_failure (w : World) (argc : Int) (argv : List String)
    (hlen : (argv.length : Int) = argc) (hmax : argc ≤ INT_MAX) :
    ∃ r, main w argc argv = .ok r ∧
      (stderr_output r.trace ≠ "" ↔ w.mrb_open = none) ∧
      (w.mrb_open ≠ none → stderr_writes r.trace = [] ∧ stderr_output r.trace = "" ∧
        r.trace.filter Call.is_fputs = []) ∧
      (∀ mrb st, w.mrb_open = some (mrb, st) →
        (w.mrb_load_irep (mrb_define_global_const st "ARGV"
          { capa := argc
            elems := argv.tail.map (fun p => mrb_str_new_cstr (w.mrb_utf8_from_locale p (-1))) })
          w.ubi).exc ≠ none →
        r.ret = 1 ∧ stderr_writes r.trace = [] ∧ stderr_output r.trace = "" ∧
          r.trace.filter Call.is_fputs = []) ∧
      (∀ st2, r.at_exit = some st2 → st2.exc ≠ none →
        r.ret = 1 ∧ stderr_output r.trace = "") := by
  have hb : ({ capa := argc
               elems := argv.tail.map
                 (fun p => mrb_str_new_cstr (w.mrb_utf8_from_locale p (-1))) } : RArray)
      = bound_array w argc argv := rfl
  simp only [hb]
  have hquiet : ∀ mrb, stderr_writes (run_trace (loop_calls w mrb) w mrb argc argv) = [] := by
    intro mrb
    have h := loop_calls_no_stderr w mrb argv.tail (mrb_ary_new_capa argc)
    simp only [stderr_writes] at h ⊢
    simp [run_trace, List.filterMap_append, h, Call.stderr_text]
  have hout : ∀ mrb, stderr_output (run_trace (loop_calls w mrb) w mrb argc argv) = "" := by
    intro mrb
    simp [stderr_output, hquiet mrb, String.join]
  have hnofputs : ∀ mrb,
      (run_trace (loop_calls w mrb) w mrb argc argv).filter Call.is_fputs = [] := by
    intro mrb
    simp [run_trace, List.filter_append, loop_calls_no_fputs, Call.is_fputs]
  cases hopen : w.mrb_open with
  | none =>
    refine ⟨_, main_fail w argc argv hopen, ?_, ?_, ?_, ?_⟩
    · simp only [iff_true]
      decide
    · intro h
      exact absurd rfl h
    · intro mrb st h
      cases h
    · intro st2 h
      cases h
  | some ms =>
    obtain ⟨mrb, st⟩ := ms
    refine ⟨_, main_run w mrb st argc argv hopen hlen hmax, ?_, ?_, ?_, ?_⟩
    · simp [hout mrb]
    · intro _
      exact ⟨hquiet mrb, hout mrb, hnofputs mrb⟩
    · intro mrb2 st2 h hexc
      simp only [Option.some.injEq, Prod.mk.injEq] at h
      obtain ⟨_, h2⟩ := h
      subst h2
      refine ⟨?_, hquiet mrb, hout mrb, hnofputs mrb⟩
      cases hx : (w.mrb_load_irep
          (mrb_define_global_const st "ARGV" (bound_array w argc argv)) w.ubi).exc with
      | none => exact absurd hx hexc
      | some e => simp [hx]
    · intro st2 h hexc
      simp only [Option.some.injEq] at h
      subst h
      constructor
      · cases hx : (w.mrb_load_irep
            (mrb_define_global_const st "ARGV" (bound_array w argc argv)) w.ubi).exc with
        | none => exact absurd hx hexc
        | some e => simp [hx]
      · exact hout mrb

theorem stderr_only_on_acquisition_failure_witness :
    ((["ubi", "a"].length : Int) = 2) ∧ ((2 : Int) ≤ INT_MAX) ∧
    ∃ r, main (sample_world true true) 2 ["ubi", "a"] = .ok r ∧
      (stderr_output r.trace ≠ "" ↔ (sample_world true true).mrb_open = none) ∧
      ((sample_world true true).mrb_open ≠ none → stderr_writes r.trace = [] ∧
        stderr_output r.trace = "" ∧ r.trace.filter Call.is_fputs = []) ∧
      (∀ mrb st, (sample_world true true).mrb_open = some (mrb, st) →
        ((sample_world true true).mrb_load_irep (mrb_define_global_const st "ARGV"
          { capa := 2
            elems := ["ubi", "a"].tail.map
              (fun p => mrb_str_new_cstr ((sample_world true true).mrb_utf8_from_locale p (-1))) })
          (sample_world true true).ubi).exc ≠ none →
        r.ret = 1 ∧ stderr_writes r.trace = [] ∧ stderr_output r.trace = "" ∧
          r.trace.filter Call.is_fputs = []) ∧
      (∀ st2, r.at_exit = some st2 → st2.exc ≠ none →
        r.ret = 1 ∧ stderr_output r.trace = "") :=
  ⟨by decide, by decide,
    stderr_only_on_acquisition_failure (sample_world true true) 2 ["ubi", "a"]
      (by decide) (by decide)⟩

/-! ## Order of the calls -/

theorem loop_calls_at (w : World) (mrb : Nat) (rest : List String) :
    ∀ (A : RArray) (k : Nat) (hk : k < rest.length),
      (loop_calls w mrb A rest)[3 * k]? = some (Call.mrb_utf8_from_locale rest[k] (-1)) ∧
      (loop_calls w mrb A rest)[3 * k + 1]?
        = some (Call.mrb_str_new_cstr mrb (w.mrb_utf8_from_locale rest[k] (-1))) ∧
      (loop_calls w mrb A rest)[3 * k + 2]?
        = some (Call.mrb_ary_push mrb
            { capa := A.capa, elems := A.elems ++ (rest.take k).map (normalize w) }
            (normalize w rest[k])) := by
  induction rest with
  | nil => intro A k hk; simp at hk
  | cons p rest ih =>
    intro A k hk
    cases k with
    | zero => simp [loop_calls]
    | succ k =>
      have hk2 : k < rest.length := by simpa using hk
      obtain ⟨h1, h2, h3⟩ := ih (mrb_ary_push A (normalize w p)) k hk2
      have e1 : 3 * (k + 1) = 3 * k + 3 := by ring
      have e2 : 3 * (k + 1) + 1 = 3 * k + 1 + 3 := by ring
      have e3 : 3 * (k + 1) + 2 = 3 * k + 2 + 3 := by ring
      simp only [loop_calls, e1, e2, e3, List.cons_append, List.nil_append,
        List.getElem?_cons_succ, List.getElem_cons_succ, List.take_succ_cons, List.map_cons]
      refine ⟨h1, h2, ?_⟩
      rw [h3]
      simp [mrb_ary_push]

theorem loop_calls_length (w : World) (mrb : Nat) (rest : List String) :
    ∀ A : RArray, (loop_calls w mrb A rest).length = 3 * rest.length := by
  induction rest with
  | nil => intro A; rfl
  | cons p rest ih => intro A; simp [loop_calls, ih]; ring

/-- C7 as stated does not hold: run with the single argument `"a"`, `main` makes
nine calls, the conversion of `"a"` being followed by `mrb_str_new_cstr` and
only then by `mrb_ary_push`; the trace with one conversion directly followed by
one push per argument is not the trace of that run. -/
theorem trace_without_str_new_refuted :
    (∃ r, main (sample_world true false) 2 ["ubi", "a"] = .ok r ∧
      r.trace = [Call.mrb_open, Call.mrb_ary_new_capa 7 2,
        Call.mrb_utf8_from_locale "a" (-1), Call.mrb_str_new_cstr 7 "a~",
        Call.mrb_ary_push 7 { capa := 2, elems := [] } "a~",
        Call.mrb_define_global_const 7 "ARGV" { capa := 2, elems := ["a~"] },
        Call.mrb_load_irep 7 [82, 73, 84, 69], Call.read_exc 7, Call.mrb_close 7]) ∧
    ¬ ∃ r, main (sample_world true false) 2 ["ubi", "a"] = .ok r ∧
      r.trace = run_trace (loop_calls_without_str_new (sample_world true false) 7)
        (sample_world true false) 7 2 ["ubi", "a"] := by
  have hrun := main_run (sample_world true false) 7 { exc := none, globals := [] } 2
    ["ubi", "a"] rfl (by decide) (by decide)
  constructor
  · refine ⟨_, hrun, ?_⟩
    simp [run_trace, loop_calls, bound_array, normalize, mrb_str_new_cstr, mrb_ary_new_capa,
      sample_world]
  · rintro ⟨r, hr, ht⟩
    rw [hrun] at hr
    injection hr with hr
    subst hr
    simp [run_trace, loop_calls, loop_calls_without_str_new] at ht

/-- C7, amended: for every argument vector of `argc` entries, when `mrb_open`
succeeds the trace of `main` is, in this order: `mrb_open`; `mrb_ary_new_capa`
with capacity `argc`; for each argument after the program name, in increasing
index order, one `mrb_utf8_from_locale` of it, one `mrb_str_new_cstr` of the
converted text and one `mrb_ary_push` of that string onto the array holding the
earlier ones; one `mrb_define_global_const` of `"ARGV"`; one `mrb_load_irep` of
`ubi`; the read of `exc`; one `mrb_close`. -/
theorem trace_of_successful_run (w : World) (mrb : Nat) (st : mrb_state) (argc : Int)
    (argv : List String) (hopen : w.mrb_open = some (mrb, st))
    (hlen : (argv.length : Int) = argc) (hmax : argc ≤ INT_MAX) :
    ∃ r body, main w argc argv = .ok r ∧
      r.trace = [Call.mrb_open, Call.mrb_ary_new_capa mrb argc] ++ body ++
        [Call.mrb_define_global_const mrb "ARGV"
            { capa := argc,
              elems := argv.tail.map
                (fun p => mrb_str_new_cstr (w.mrb_utf8_from_locale p (-1))) },
         Call.mrb_load_irep mrb w.ubi, Call.read_exc mrb, Call.mrb_close mrb] ∧
      body = loop_calls w mrb (mrb_ary_new_capa argc) argv.tail ∧
      body.length = 3 * argv.tail.length ∧
      ∀ (k : Nat) (hk : k < argv.tail.length),
        body[3 * k]? = some (Call.mrb_utf8_from_locale argv.tail[k] (-1)) ∧
        body[3 * k + 1]?
          = some (Call.mrb_str_new_cstr mrb (w.mrb_utf8_from_locale argv.tail[k] (-1))) ∧
        body[3 * k + 2]?
          = some (Call.mrb_ary_push mrb
              { capa := argc,
                elems := (argv.tail.take k).map
                  (fun p => mrb_str_new_cstr (w.mrb_utf8_from_locale p (-1))) }
              (mrb_str_new_cstr (w.mrb_utf8_from_locale argv.tail[k] (-1)))) := by
  refine ⟨_, loop_calls w mrb (mrb_ary_new_capa argc) argv.tail,
    main_run w mrb st argc argv hopen hlen hmax, ?_, rfl, loop_calls_length _ _ _ _, ?_⟩
  · simp only [run_trace, bound_array]
    rfl
  · intro k hk
    have h := loop_calls_at w mrb argv.tail (mrb_ary_new_capa argc) k hk
    simpa [mrb_ary_new_capa, normalize] using h

theorem trace_of_successful_run_witness :
    (sample_world true false).mrb_open = some (7, { exc := none, globals := [] }) ∧
    ((["ubi", "a", "b"].length : Int) = 3) ∧ ((3 : Int) ≤ INT_MAX) ∧
    ∃ r body, main (sample_world true false) 3 ["ubi", "a", "b"] = .ok r ∧
      r.trace = [Call.mrb_open, Call.mrb_ary_new_capa 7 3] ++ body ++
        [Call.mrb_define_global_const 7 "ARGV"
            { capa := 3,
              elems := ["ubi", "a", "b"].tail.map
                (fun p => mrb_str_new_cstr
                  ((sample_world true false).mrb_utf8_from_locale p (-1))) },
         Call.mrb_load_irep 7 (sample_world true false).ubi, Call.read_exc 7,
         Call.mrb_close 7] ∧
      body = loop_calls (sample_world true false) 7 (mrb_ary_new_capa 3)
        ["ubi", "a", "b"].tail ∧
      body.length = 3 * ["ubi", "a", "b"].tail.length ∧
      ∀ (k : Nat) (hk : k < ["ubi", "a", "b"].tail.length),
        body[3 * k]? = some (Call.mrb_utf8_from_locale ["ubi", "a", "b"].tail[k] (-1)) ∧
        body[3 * k + 1]?
          = some (Call.mrb_str_new_cstr 7
              ((sample_world true false).mrb_utf8_from_locale ["ubi", "a", "b"].tail[k] (-1))) ∧
        body[3 * k + 2]?
          = some (Call.mrb_ary_push 7
              { capa := 3,
                elems := (["ubi", "a", "b"].tail.take k).map
                  (fun p => mrb_str_new_cstr
                    ((sample_world true false).mrb_utf8_from_locale p (-1))) }
              (mrb_str_new_cstr
                ((sample_world true false).mrb_utf8_from_locale
                  ["ubi", "a", "b"].tail[k] (-1)))) :=
  ⟨rfl, by decide, by decide,
    trace_of_successful_run (sample_world true false) 7 { exc := none, globals := [] } 3
      ["ubi", "a", "b"] rfl (by decide) (by decide)⟩

/-! ## Bounds of the argument loop -/

/-- C8: for `argv` of `argc` entries, `argc` at most `INT_MAX`, the loop of
`main` returns after exactly `max (argc - 1) 0` iterations; `argv` is read once
per iteration, at the indices 1, 2, ... in turn, each of them at least 1 and
below `argc` and so inside `argv`; the counter can be incremented after each of
them without exceeding `INT_MAX`; no fault is reached. -/
theorem argument_loop_bounds (w : World) (mrb : Nat) (st : mrb_state) (argc : Int)
    (argv : List String) (hopen : w.mrb_open = some (mrb, st))
    (hlen : (argv.length : Int) = argc) (hmax : argc ≤ INT_MAX) :
    ∃ r, main w argc argv = .ok r ∧
      (r.iterations : Int) = max (argc - 1) 0 ∧
      r.reads = (List.range r.iterations).map (fun (k : Nat) => 1 + Int.ofNat k) ∧
      (∀ i ∈ r.reads, 1 ≤ i ∧ i < argc ∧ (∃ p, argv_at argv i = .ok p) ∧ i + 1 ≤ INT_MAX) ∧
      ∀ f, main w argc argv ≠ .error f := by
  have hrun := main_run w mrb st argc argv hopen hlen hmax
  have hit := tail_length_int argv argc hlen
  refine ⟨_, hrun, hit, rfl, ?_, ?_⟩
  · intro i hi
    simp only [List.mem_map, List.mem_range] at hi
    obtain ⟨k, hk, rfl⟩ := hi
    have hk2 : (k : Int) < argv.tail.length := by exact_mod_cast hk
    have h1 : (1 : Int) ≤ 1 + Int.ofNat k := by
      have : (0 : Int) ≤ Int.ofNat k := Int.ofNat_nonneg k
      omega
    have h2 : 1 + Int.ofNat k < argc := by
      have : Int.ofNat k = (k : Int) := rfl
      omega
    refine ⟨h1, h2, ?_, by omega⟩
    have hidx : (1 + Int.ofNat k).toNat < argv.length := by
      have : Int.ofNat k = (k : Int) := rfl
      omega
    refine ⟨argv[(1 + Int.ofNat k).toNat], ?_⟩
    have hnn : ¬ (1 + Int.ofNat k < 0) := by omega
    unfold argv_at
    rw [if_neg hnn, List.getElem?_eq_getElem hidx]
  · intro f hf
    rw [hrun] at hf
    cases hf

theorem argument_loop_bounds_witness :
    (sample_world true false).mrb_open = some (7, { exc := none, globals := [] }) ∧
    ((["ubi", "a", "b"].length : Int) = 3) ∧ ((3 : Int) ≤ INT_MAX) ∧
    ∃ r, main (sample_world true false) 3 ["ubi", "a", "b"] = .ok r ∧
      (r.iterations : Int) = max (3 - 1) 0 ∧
      r.reads = (List.range r.iterations).map (fun (k : Nat) => 1 + Int.ofNat k) ∧
      (∀ i ∈ r.reads, 1 ≤ i ∧ i < 3 ∧ (∃ p, argv_at ["ubi", "a", "b"] i = .ok p) ∧
        i + 1 ≤ INT_MAX) ∧
      ∀ f, main (sample_world true false) 3 ["ubi", "a", "b"] ≠ .error f :=
  ⟨rfl, by decide, by decide,
    argument_loop_bounds (sample_world true false) 7 { exc := none, globals := [] } 3
      ["ubi", "a", "b"] rfl (by decide) (by decide)⟩

/-! ## Capacity and length of the array -/

/-- C9: for `argv` of `argc` entries, when `mrb_open` succeeds, the one array
`main` creates is requested with capacity `argc`; the number of pushes is
`max (argc - 1) 0`, which is at most that capacity, and every push finds the
array with fewer than `argc` elements; the array bound as `ARGV` has as many
elements as there were pushes, which for `argc` at least 1 is `argc - 1`, one
less than the capacity. -/
theorem capacity_covers_pushes (w : World) (mrb : Nat) (st : mrb_state) (argc : Int)
    (argv : List String) (hopen : w.mrb_open = some (mrb, st))
    (hlen : (argv.length : Int) = argc) (hmax : argc ≤ INT_MAX) :
    ∃ r A, main w argc argv = .ok r ∧
      r.trace.filter Call.is_ary_new = [Call.mrb_ary_new_capa mrb argc] ∧
      r.trace.filter Call.is_define = [Call.mrb_define_global_const mrb "ARGV" A] ∧
      A.capa = argc ∧
      ((r.trace.filter Call.is_push).length : Int) = max (argc - 1) 0 ∧
      ((r.trace.filter Call.is_push).length : Int) ≤ argc ∧
      (∀ m a v, Call.mrb_ary_push m a v ∈ r.trace →
        a.capa = argc ∧ (a.elems.length : Int) < argc) ∧
      A.elems.length = (r.trace.filter Call.is_push).length ∧
      (1 ≤ argc → (A.elems.length : Int) = argc - 1 ∧ (A.elems.length : Int) = A.capa - 1) := by
  have hit := tail_length_int argv argc hlen
  have hpush : ((run_trace (loop_calls w mrb) w mrb argc argv).filter Call.is_push).length
      = argv.tail.length := by
    simp [run_trace, List.filter_append, Call.is_push, loop_calls_pushes]
  refine ⟨_, bound_array w argc argv, main_run w mrb st argc argv hopen hlen hmax,
    ?_, ?_, rfl, ?_, ?_, ?_, ?_, ?_⟩
  · simp [run_trace, List.filter_append, loop_calls_no_ary_new, Call.is_ary_new]
  · simp [run_trace, List.filter_append, loop_calls_no_define, Call.is_define]
  · simp only [hpush]
    exact hit
  · simp only [hpush]
    omega
  · intro m a v hmem
    simp only [run_trace, List.mem_append, List.mem_cons, List.mem_singleton] at hmem
    have hin : Call.mrb_ary_push m a v ∈ loop_calls w mrb (mrb_ary_new_capa argc) argv.tail := by
      rcases hmem with ((h | h | h) | h) | h | h | h | h | h
      · cases h
      · cases h
      · cases h
      · exact h
      · cases h
      · cases h
      · cases h
      · cases h
      · cases h
    have h2 := loop_calls_push_room w mrb argv.tail (mrb_ary_new_capa argc) m a v hin
    simp only [mrb_ary_new_capa, List.length_nil, Nat.zero_add] at h2
    refine ⟨h2.1, ?_⟩
    have h3 : (a.elems.length : Int) < argv.tail.length := by exact_mod_cast h2.2
    omega
  · simp only [hpush]
    simp [bound_array]
  · intro h1
    have hl : ((bound_array w argc argv).elems.length : Int) = argv.tail.length := by
      simp [bound_array]
    have hc : (bound_array w argc argv).capa = argc := rfl
    rw [hl, hc]
    omega

theorem capacity_covers_pushes_witness :
    (sample_world true false).mrb_open = some (7, { exc := none, globals := [] }) ∧
    ((["ubi", "a", "b"].length : Int) = 3) ∧ ((3 : Int) ≤ INT_MAX) ∧
    ∃ r A, main (sample_world true false) 3 ["ubi", "a", "b"] = .ok r ∧
      r.trace.filter Call.is_ary_new = [Call.mrb_ary_new_capa 7 3] ∧
      r.trace.filter Call.is_define = [Call.mrb_define_global_const 7 "ARGV" A] ∧
      A.capa = 3 ∧
      ((r.trace.filter Call.is_push).length : Int) = max (3 - 1) 0 ∧
      ((r.trace.filter Call.is_push).length : Int) ≤ 3 ∧
      (∀ m a v, Call.mrb_ary_push m a v ∈ r.trace →
        a.capa = 3 ∧ (a.elems.length : Int) < 3) ∧
      A.elems.length = (r.trace.filter Call.is_push).length ∧
      ((1 : Int) ≤ 3 → (A.elems.length : Int) = 3 - 1 ∧ (A.elems.length : Int) = A.capa - 1) :=
  ⟨rfl, by decide, by decide,
    capacity_covers_pushes (sample_world true false) 7 { exc := none, globals := [] } 3
      ["ubi", "a", "b"] rfl (by decide) (by decide)⟩

end BuildUbi
